import Mathlib

/-!
Shallow embedding of the zsh-alias-manager (`zam`) core, translated from
`src/index.ts`.  JavaScript strings are modelled as `List Char`; JS objects
used as string-keyed dictionaries are modelled as association lists with
JS assignment/delete semantics.  All machine behaviour relevant to the
alias-file codec (`parseAliases` / `writeAliases`), the metadata store and
the add/remove/rename/tag command handlers is translated here, including
JS quirks that matter: `String.prototype.substring` clamping and argument
swapping, `trim`'s whitespace set, and truthiness tests on possibly-empty
strings.
-/

/-- JS strings modelled as lists of unicode scalar values. -/
abbrev Str := List Char

/-- The whitespace set removed by JS `String.prototype.trim`
(WhiteSpace ∪ LineTerminator code points). -/
def isJsWhitespace (c : Char) : Bool :=
  (c.toNat == 9) || (c.toNat == 10) || (c.toNat == 11) || (c.toNat == 12) ||
  (c.toNat == 13) || (c.toNat == 32) || (c.toNat == 160) || (c.toNat == 0x1680) ||
  (0x2000 ≤ c.toNat && c.toNat ≤ 0x200A) || (c.toNat == 0x2028) ||
  (c.toNat == 0x2029) || (c.toNat == 0x202F) || (c.toNat == 0x205F) ||
  (c.toNat == 0x3000) || (c.toNat == 0xFEFF)

/-- JS `s.trim()`: strip leading and trailing whitespace. -/
def jsTrim (s : Str) : Str :=
  (s.dropWhile isJsWhitespace).rdropWhile isJsWhitespace

/-- JS `s.substring(a, b)`: indices are clamped into `[0, s.length]` and
swapped when `a > b`. -/
def jsSubstring (s : Str) (a b : Nat) : Str :=
  let a' := min a s.length
  let b' := min b s.length
  (s.take (max a' b')).drop (min a' b')

/-- JS `s.startsWith(p)`. -/
def startsWithL (p s : Str) : Bool :=
  decide (s.take p.length = p)

/-- `src/index.ts` line 254: `command.replace(/'/g, "'\\''")` — escape every
single quote of a command as the four characters `'\''`. -/
def escapeQuotes : Str → Str
  | [] => []
  | c :: cs =>
    if c = '\'' then '\'' :: '\\' :: '\'' :: '\'' :: escapeQuotes cs
    else c :: escapeQuotes cs

/-- `src/index.ts` line 225: `value.replace(/'\\''/g, "'")` — replace each
leftmost non-overlapping occurrence of the four characters `'\''` by a
single quote, scanning left to right. -/
def unescapeQuotes : Str → Str
  | [] => []
  | '\'' :: '\\' :: '\'' :: '\'' :: rest => '\'' :: unescapeQuotes rest
  | c :: rest => c :: unescapeQuotes rest

/-- `src/index.ts` lines 220-222: strip a surrounding quote pair.  The JS
guard is `startsWith`/`endsWith` on the same quote character, and the strip
is `value.substring(1, value.length - 1)`; on a one-character value the
guard fires but `substring(1, 0)` swaps its arguments and returns the value
unchanged. -/
def stripQuotes (v : Str) : Str :=
  if (v.head? = some '\'' ∧ v.getLast? = some '\'') ∨
     (v.head? = some '"' ∧ v.getLast? = some '"') then
    jsSubstring v 1 (v.length - 1)
  else v

/-- JS object lookup `m[k]` on a string-keyed dictionary (`undefined` ↦ `none`). -/
def lookupKV {β : Type} : List (Str × β) → Str → Option β
  | [], _ => none
  | p :: rest, k => if p.1 = k then some p.2 else lookupKV rest k

/-- JS object assignment `m[k] = v`: update in place when the key exists,
append otherwise. -/
def insertKV {β : Type} : List (Str × β) → Str → β → List (Str × β)
  | [], k, v => [(k, v)]
  | p :: rest, k, v => if p.1 = k then (k, v) :: rest else p :: insertKV rest k v

/-- JS `delete m[k]`: remove the binding for `k`. -/
def deleteKV {β : Type} (m : List (Str × β)) (k : Str) : List (Str × β) :=
  m.filter (fun p => decide (p.1 ≠ k))

/-- `Object.keys m`. -/
def keysOf {β : Type} (m : List (Str × β)) : List Str :=
  m.map Prod.fst

/-- The in-memory alias mapping (`AliasMap` in `src/index.ts`). -/
abbrev AliasMap := List (Str × Str)

/-- `src/index.ts` lines 202-230, the body of the per-line loop of
`parseAliases`: returns the `(name, command)` binding a line contributes,
or `none` when the line is skipped (empty after trim, comment, missing
`alias ` keyword, or no `=`). -/
def lineDef (line : Str) : Option (Str × Str) :=
  let t := jsTrim line
  if t = [] then none
  else if startsWithL ['#'] t then none
  else if ¬ startsWithL "alias ".toList t then none
  else if '=' ∉ t then none
  else
    let eqIdx := t.indexOf '='
    let key := jsTrim (jsSubstring t 6 eqIdx)
    let value := unescapeQuotes (stripQuotes (jsTrim (jsSubstring t (eqIdx + 1) t.length)))
    some (key, value)

/-- `src/index.ts` lines 202-230: `parseAliases` — split on `'\n'`, fold the
qualifying lines into the mapping with JS assignment (last write wins). -/
def parseAliases (content : Str) : AliasMap :=
  (content.splitOn '\n').foldl
    (fun m line =>
      match lineDef line with
      | none => m
      | some kv => insertKV m kv.1 kv.2)
    []

/-- The fixed header line `# Managed by Zsh Alias Manager (zam)`. -/
def headerLine : Str := "# Managed by Zsh Alias Manager (zam)".toList

/-- One serialized alias line: `alias <name>='<escaped command>'`
(`src/index.ts` line 255). -/
def lineFor (name command : Str) : Str :=
  "alias ".toList ++ name ++ "='".toList ++ escapeQuotes command ++ ['\'']

/-- JS default `Array.prototype.sort()` over the key strings: ascending
lexicographic order by character code. -/
def sortKeys (l : List Str) : List Str :=
  l.insertionSort (fun a b => a ≤ b)

/-- `src/index.ts` lines 244-266: the full text `writeAliases` produces —
header line, then one line per alias in ascending key order, joined by
newlines with a single final newline. -/
def writeAliasesContent (m : AliasMap) : Str :=
  let sorted := sortKeys (keysOf m)
  let lines := headerLine :: sorted.map (fun n => lineFor n ((lookupKV m n).getD []))
  List.intercalate ['\n'] lines ++ ['\n']

/-- The `AliasMetadata` record of `src/index.ts` lines 44-49: optional
`tags` list, optional `created` timestamp, optional legacy single `tag`.
An absent field is `none`. -/
structure AliasMetadata where
  tags : Option (List Str) := none
  created : Option Str := none
  tag : Option Str := none
deriving DecidableEq

/-- The metadata map of `src/index.ts` lines 51-53 (`MetadataMap`). -/
abbrev MetadataMap := List (Str × AliasMetadata)

/-- JS truthiness of a possibly-absent string (`undefined` and `""` are
falsy; every non-empty string is truthy). -/
def truthyStr : Option Str → Bool
  | none => false
  | some v => !v.isEmpty

/-- JS `s.toLowerCase()` (modelled per character). -/
def lowerStr (s : Str) : Str := s.map Char.toLower

/-- One-element list from a truthy legacy `tag` field, else empty. -/
def legacyTagList : Option Str → List Str
  | none => []
  | some t => if t = [] then [] else [t]

/-- `src/index.ts` lines 56-61: `getAliasTags` — `tags` when present and
non-empty, else the truthy legacy `tag` as a singleton, else `[]`. -/
def getAliasTags : Option AliasMetadata → List Str
  | none => []
  | some m =>
    match m.tags with
    | some ts => if ts = [] then legacyTagList m.tag else ts
    | none => legacyTagList m.tag

/-- The persistent state the handlers act on: the alias file contents as a
mapping plus the metadata file contents. -/
structure ZamState where
  aliases : AliasMap
  metadata : MetadataMap
deriving DecidableEq

/-- Observable filesystem effects of a handler run, used to state the
dry-run claims. -/
inductive FsEffect where
  | writeAliasFile (content : Str)
  | writeMetaFile (m : MetadataMap)
  | previewAliasFile (content : Str)
deriving DecidableEq

/-- Labeled handler outcomes. -/
inductive OpOutcome where
  | ok
  | notFound
  | conflict
deriving DecidableEq

/-- `src/index.ts` lines 244-266: `writeAliases` either writes the
serialized content or, under `--dry-run`, prints it as a preview. -/
def writeAliasesEffects (dryRun : Bool) (m : AliasMap) : List FsEffect :=
  if dryRun then [FsEffect.previewAliasFile (writeAliasesContent m)]
  else [FsEffect.writeAliasFile (writeAliasesContent m)]

/-- The metadata record stored by the `add` action (`src/index.ts` lines
286-291): `setAliasMetadata` spreads `{ created: now }` — plus `tags` when
tags were supplied — over the existing record, so `created` always takes
the new value and the legacy `tag` field is kept. -/
def addMetaRecord (old : Option AliasMetadata) (tags : List Str) (now : Str) : AliasMetadata :=
  let base := old.getD {}
  if tags = [] then { base with created := some now }
  else { base with created := some now, tags := some tags }

/-- `src/index.ts` lines 276-299: the `add` command action.  Returns the
resulting persistent state and the filesystem effects performed.  Under
`--dry-run` nothing is written: the state is unchanged and the only effect
is the preview of the would-be alias file. -/
def addOp (dryRun : Bool) (st : ZamState) (name command : Str) (tags : List Str) (now : Str) :
    ZamState × List FsEffect :=
  let aliases2 := insertKV st.aliases name command
  let eff := writeAliasesEffects dryRun aliases2
  if dryRun then (st, eff)
  else
    let md2 := insertKV st.metadata name (addMetaRecord (lookupKV st.metadata name) tags now)
    ({ aliases := aliases2, metadata := md2 }, eff ++ [FsEffect.writeMetaFile md2])

/-- `src/index.ts` lines 301-321: the `remove` command action (non-dry-run).
The existence test is JS truthiness of `aliases[name]`. -/
def removeOp (st : ZamState) (name : Str) : ZamState × OpOutcome :=
  if !truthyStr (lookupKV st.aliases name) then (st, OpOutcome.notFound)
  else
    ({ aliases := deleteKV st.aliases name,
       metadata := deleteKV st.metadata name }, OpOutcome.ok)

/-- `src/index.ts` lines 323-358: the `rename` command action (non-dry-run).
Both guards are JS truthiness tests; on success the value is moved
(`aliases[newName] = aliases[oldName]; delete aliases[oldName]`) and the
metadata record is moved only when one exists. -/
def renameOp (st : ZamState) (oldName newName : Str) : ZamState × OpOutcome :=
  if !truthyStr (lookupKV st.aliases oldName) then (st, OpOutcome.notFound)
  else if truthyStr (lookupKV st.aliases newName) then (st, OpOutcome.conflict)
  else
    let v := (lookupKV st.aliases oldName).getD []
    let aliases2 := deleteKV (insertKV st.aliases newName v) oldName
    let md2 :=
      match lookupKV st.metadata oldName with
      | some r => deleteKV (insertKV st.metadata newName r) oldName
      | none => st.metadata
    ({ aliases := aliases2, metadata := md2 }, OpOutcome.ok)

/-- The tag sub-mode selected by the `tag` command's options, in the
precedence order of `src/index.ts` lines 620-637 (`--clear` > `--set` >
`--add` > `--remove`; no option shows the current tags). -/
inductive TagMode where
  | showTags
  | clear
  | set (ts : List Str)
  | add (ts : List Str)
  | remove (ts : List Str)

/-- `src/index.ts` lines 620-637: the new tag list computed from the
current tags.  `--add` appends tags absent case-insensitively; `--remove`
filters case-insensitively. -/
def newTagsFor (currentTags : List Str) : TagMode → List Str
  | TagMode.showTags => currentTags
  | TagMode.clear => []
  | TagMode.set ts => ts
  | TagMode.add ts =>
    ts.foldl
      (fun acc t =>
        if acc.any (fun u => decide (lowerStr u = lowerStr t)) then acc else acc ++ [t])
      currentTags
  | TagMode.remove ts =>
    currentTags.filter (fun t => !(ts.map lowerStr).any (fun u => decide (u = lowerStr t)))

/-- `src/index.ts` lines 578-661: the `tag` command action (non-dry-run).
When the resulting tag list is empty both `tags` and the legacy `tag`
field are deleted; otherwise the record is stored with `tags` set to the
new list and the legacy `tag` field deleted. -/
def tagOp (st : ZamState) (name : Str) (mode : TagMode) : ZamState × OpOutcome :=
  if !truthyStr (lookupKV st.aliases name) then (st, OpOutcome.notFound)
  else
    match mode with
    | TagMode.showTags => (st, OpOutcome.ok)
    | _ =>
      let currentTags := getAliasTags (lookupKV st.metadata name)
      let newTags := newTagsFor currentTags mode
      let base := (lookupKV st.metadata name).getD {}
      let md2 :=
        if newTags = [] then
          insertKV st.metadata name { base with tags := none, tag := none }
        else
          insertKV st.metadata name { base with tags := some newTags, tag := none }
      ({ st with metadata := md2 }, OpOutcome.ok)

example : parseAliases "alias gs='git status'".toList = [("gs".toList, "git status".toList)] := by decide
example : parseAliases "alias foo='echo '\\''hello'\\'''".toList = [("foo".toList, "echo 'hello'".toList)] := by decide
example : parseAliases "# comment\nexport PATH=/usr/bin\nalias foo=bar".toList = [("foo".toList, "bar".toList)] := by decide
example : writeAliasesContent [("gs".toList, "git status".toList)] = "# Managed by Zsh Alias Manager (zam)\nalias gs='git status'\n".toList := by decide
example : stripQuotes ['\''] = ['\''] := by decide
example : parseAliases (writeAliasesContent [("b".toList, "it's".toList), ("a".toList, "x".toList)]) = [("a".toList, "x".toList), ("b".toList, "it's".toList)] := by decide

/-! ### Basic lemmas about the JS dictionary model -/

theorem lookupKV_insertKV {β : Type} (m : List (Str × β)) (k : Str) (v : β) (key : Str) :
    lookupKV (insertKV m k v) key = if key = k then some v else lookupKV m key := by
  induction m with
  | nil =>
    by_cases h : key = k
    · subst h; simp [insertKV, lookupKV]
    · simp [insertKV, lookupKV, h, Ne.symm h]
  | cons p rest ih =>
    by_cases hpk : p.1 = k
    · simp only [insertKV, if_pos hpk, lookupKV]
      by_cases h : key = k
      · subst h; simp
      · have hpkey : ¬ p.1 = key := fun hh => h (hh ▸ hpk)
        have hk2 : ¬ k = key := fun hh => h hh.symm
        simp only [if_neg hk2, if_neg h, if_neg hpkey]
    · simp only [insertKV, if_neg hpk, lookupKV]
      by_cases hp : p.1 = key
      · have : ¬ key = k := fun hh => hpk (hp.trans hh)
        simp [hp, this]
      · simp [hp, ih]

theorem lookupKV_deleteKV {β : Type} (m : List (Str × β)) (k : Str) (key : Str) :
    lookupKV (deleteKV m k) key = if key = k then none else lookupKV m key := by
  induction m with
  | nil => simp [deleteKV, lookupKV]
  | cons p rest ih =>
    simp only [deleteKV, List.filter_cons] at ih ⊢
    by_cases hpk : p.1 = k
    · simp only [hpk, ne_eq, not_true_eq_false, decide_False, Bool.false_eq_true, if_false, ih]
      by_cases h : key = k
      · simp [h]
      · have hpkey : ¬ p.1 = key := fun hh => h ((hh.symm.trans hpk))
        simp [h, lookupKV, hpkey]
    · simp only [ne_eq, hpk, not_false_eq_true, decide_True, if_true, lookupKV, ih]
      by_cases hp : p.1 = key
      · have : ¬ key = k := fun hh => hpk (hp.trans hh)
        simp [hp, this]
      · simp [hp]

theorem lookupKV_isSome_iff {β : Type} (m : List (Str × β)) (key : Str) :
    (lookupKV m key).isSome = true ↔ key ∈ keysOf m := by
  induction m with
  | nil =>
    rw [show lookupKV ([] : List (Str × β)) key = none from rfl]
    simp [keysOf]
  | cons p rest ih =>
    rw [show lookupKV (p :: rest) key = if p.1 = key then some p.2 else lookupKV rest key from rfl]
    by_cases hp : p.1 = key
    · rw [if_pos hp]
      simp only [keysOf, List.map_cons, List.mem_cons]
      constructor
      · intro _
        exact Or.inl hp.symm
      · intro _
        rfl
    · rw [if_neg hp]
      simp only [keysOf, List.map_cons, List.mem_cons]
      simp only [keysOf] at ih
      constructor
      · intro h
        exact Or.inr (ih.mp h)
      · rintro (h | h)
        · exact absurd h.symm hp
        · exact ih.mpr h

theorem lookupKV_eq_none_of_not_mem {β : Type} (m : List (Str × β)) (key : Str)
    (h : key ∉ keysOf m) : lookupKV m key = none := by
  cases ho : lookupKV m key with
  | none => rfl
  | some v =>
    exact absurd ((lookupKV_isSome_iff m key).mp (by rw [ho]; rfl)) h

theorem lookupKV_mem {β : Type} (m : List (Str × β)) (key : Str) (v : β)
    (h : lookupKV m key = some v) : (key, v) ∈ m := by
  induction m with
  | nil => simp [lookupKV] at h
  | cons p rest ih =>
    by_cases hp : p.1 = key
    · simp only [lookupKV, if_pos hp] at h
      injection h with h2
      have hpv : p = (key, v) := by
        cases p
        simp only [Prod.mk.injEq]
        exact ⟨hp, h2⟩
      rw [← hpv]
      exact List.mem_cons_self _ _
    · simp only [lookupKV, if_neg hp] at h
      exact List.mem_cons_of_mem _ (ih h)

theorem mem_keysOf_insertKV {β : Type} (m : List (Str × β)) (k : Str) (v : β) (key : Str) :
    key ∈ keysOf (insertKV m k v) ↔ key = k ∨ key ∈ keysOf m := by
  induction m with
  | nil => simp [insertKV, keysOf, eq_comm]
  | cons p rest ih =>
    by_cases hpk : p.1 = k
    · simp only [insertKV, if_pos hpk, keysOf, List.map_cons, List.mem_cons]
      constructor
      · rintro (h | h)
        · exact Or.inl h
        · exact Or.inr (Or.inr h)
      · rintro (h | h | h)
        · exact Or.inl h
        · exact Or.inl (hpk ▸ h)
        · exact Or.inr h
    · simp only [insertKV, if_neg hpk, keysOf, List.map_cons, List.mem_cons]
      simp only [keysOf] at ih
      constructor
      · rintro (h | h)
        · exact Or.inr (Or.inl h)
        · rcases ih.mp h with h' | h'
          · exact Or.inl h'
          · exact Or.inr (Or.inr h')
      · rintro (h | h | h)
        · exact Or.inr (ih.mpr (Or.inl h))
        · exact Or.inl h
        · exact Or.inr (ih.mpr (Or.inr h))

theorem nodup_keysOf_insertKV {β : Type} (m : List (Str × β)) (k : Str) (v : β)
    (h : (keysOf m).Nodup) : (keysOf (insertKV m k v)).Nodup := by
  induction m with
  | nil => simp [insertKV, keysOf]
  | cons p rest ih =>
    simp only [keysOf, List.map_cons, List.nodup_cons] at h
    by_cases hpk : p.1 = k
    · simp only [insertKV, if_pos hpk, keysOf, List.map_cons, List.nodup_cons]
      exact ⟨hpk ▸ h.1, h.2⟩
    · simp only [insertKV, if_neg hpk, keysOf, List.map_cons, List.nodup_cons]
      refine ⟨?_, ih h.2⟩
      intro hmem
      rcases (mem_keysOf_insertKV rest k v p.1).mp hmem with h' | h'
      · exact hpk h'
      · exact h.1 h'

/-! ### The quote escape/unescape round trip -/

theorem escapeQuotes_quote (cs : Str) :
    escapeQuotes ('\'' :: cs) = '\'' :: '\\' :: '\'' :: '\'' :: escapeQuotes cs := by
  simp [escapeQuotes]

theorem escapeQuotes_ne (c : Char) (cs : Str) (h : c ≠ '\'') :
    escapeQuotes (c :: cs) = c :: escapeQuotes cs := by
  simp [escapeQuotes, h]

theorem unescapeQuotes_cons_ne (c : Char) (rest : Str) (h : c ≠ '\'') :
    unescapeQuotes (c :: rest) = c :: unescapeQuotes rest := by
  rcases rest with _ | ⟨a, rest⟩
  · simp [unescapeQuotes, h]
  rcases rest with _ | ⟨b, rest⟩
  · simp [unescapeQuotes, h]
  rcases rest with _ | ⟨d, rest⟩
  · simp [unescapeQuotes, h]
  simp [unescapeQuotes, h]

theorem unescapeQuotes_escapeQuotes (s : Str) : unescapeQuotes (escapeQuotes s) = s := by
  induction s with
  | nil => rfl
  | cons c cs ih =>
    by_cases hc : c = '\''
    · subst hc
      rw [escapeQuotes_quote]
      simpa [unescapeQuotes] using ih
    · rw [escapeQuotes_ne c cs hc, unescapeQuotes_cons_ne c _ hc, ih]

theorem mem_escapeQuotes (c : Char) (s : Str) (h : c ∈ escapeQuotes s) :
    c ∈ s ∨ c = '\'' ∨ c = '\\' := by
  induction s with
  | nil => simp [escapeQuotes] at h
  | cons a cs ih =>
    by_cases ha : a = '\''
    · subst ha
      rw [escapeQuotes_quote] at h
      simp only [List.mem_cons] at h
      rcases h with h | h | h | h | h
      · exact Or.inr (Or.inl h)
      · exact Or.inr (Or.inr h)
      · exact Or.inr (Or.inl h)
      · exact Or.inr (Or.inl h)
      · rcases ih h with h2 | h2
        · exact Or.inl (List.mem_cons_of_mem _ h2)
        · exact Or.inr h2
    · rw [escapeQuotes_ne a cs ha] at h
      rcases List.mem_cons.mp h with h | h
      · exact Or.inl (h ▸ List.mem_cons_self a cs)
      · rcases ih h with h2 | h2
        · exact Or.inl (List.mem_cons_of_mem _ h2)
        · exact Or.inr h2

theorem newline_not_mem_escapeQuotes (s : Str) (h : '\n' ∉ s) : '\n' ∉ escapeQuotes s := by
  intro hmem
  rcases mem_escapeQuotes _ _ hmem with h' | h' | h'
  · exact h h'
  · exact absurd h' (by decide)
  · exact absurd h' (by decide)

/-! ### Quote stripping (claim C4) -/

/-- C4: `parseAliases`'s quote-stripping step removes the outermost quote
characters if and only if the trimmed value is wrapped in a single matching
pair of quote characters (`'...'` or `"..."`) spanning the whole value —
i.e. it has length at least two and matching first and last quote
characters — and in that case it removes exactly that one outer pair
(`tail.dropLast`).  Any other value, in particular a value consisting of a
single lone quote character, is returned unchanged. -/
theorem C4_stripQuotes_spec (v : Str) :
    stripQuotes v =
      if 2 ≤ v.length ∧
         ((v.head? = some '\'' ∧ v.getLast? = some '\'') ∨
          (v.head? = some '"' ∧ v.getLast? = some '"')) then
        v.tail.dropLast
      else v := by
  unfold stripQuotes
  by_cases hq : (v.head? = some '\'' ∧ v.getLast? = some '\'') ∨
      (v.head? = some '"' ∧ v.getLast? = some '"')
  · rw [if_pos hq]
    have hne : v ≠ [] := by
      rcases hq with ⟨h1, _⟩ | ⟨h1, _⟩ <;>
        · intro h
          rw [h] at h1
          simp at h1
    have hlen1 : 1 ≤ v.length := by
      have := List.length_pos.mpr hne
      omega
    by_cases hl : 2 ≤ v.length
    · rw [if_pos ⟨hl, hq⟩]
      show (v.take (max (min 1 v.length) (min (v.length - 1) v.length))).drop
          (min (min 1 v.length) (min (v.length - 1) v.length)) = v.tail.dropLast
      have h1 : min 1 v.length = 1 := by omega
      have h2 : min (v.length - 1) v.length = v.length - 1 := by omega
      have h3 : max 1 (v.length - 1) = v.length - 1 := by omega
      have h4 : min 1 (v.length - 1) = 1 := by omega
      rw [h1, h2, h3, h4, List.drop_take, List.dropLast_eq_take, List.length_tail]
      have : v.tail = v.drop 1 := (List.drop_one v).symm
      rw [this]
    · rw [if_neg (fun h => hl h.1)]
      have hlen : v.length = 1 := by omega
      rcases List.length_eq_one.mp hlen with ⟨c, rfl⟩
      show ([c].take (max (min 1 1) (min 0 1))).drop (min (min 1 1) (min 0 1)) = [c]
      simp
  · rw [if_neg hq, if_neg (fun h => hq h.2)]

/-! ### Parser totality and skipping (claim C10) -/

/-- C10: `parseAliases` is total (it is a Lean function), and a line that is
empty after trimming, starts with `#`, does not start with `alias `, or
contains no `=` contributes no binding; content made only of such lines
parses to the empty mapping. -/
theorem C10_parse_skips :
    (∀ line : Str,
        (jsTrim line = [] ∨ startsWithL ['#'] (jsTrim line) = true ∨
         startsWithL "alias ".toList (jsTrim line) = false ∨ '=' ∉ jsTrim line) →
        lineDef line = none) ∧
    (∀ content : Str,
        (∀ line ∈ content.splitOn '\n', lineDef line = none) →
        parseAliases content = []) := by
  constructor
  · intro line h
    simp only [lineDef]
    split_ifs with h1 h2 h3 h4
    any_goals rfl
    exfalso
    rcases h with h | h | h | h
    · exact h1 h
    · exact h2 h
    · exact absurd (h3.symm.trans h) (by decide)
    · exact h h4
  · intro content hall
    have gen : ∀ (lines : List Str) (m : AliasMap),
        (∀ line ∈ lines, lineDef line = none) →
        lines.foldl
          (fun m line =>
            match lineDef line with
            | none => m
            | some kv => insertKV m kv.1 kv.2) m = m := by
      intro lines
      induction lines with
      | nil => intro m _; rfl
      | cons l rest ih =>
        intro m hml
        rw [List.foldl_cons]
        have hl : lineDef l = none := hml l (List.mem_cons_self _ _)
        rw [show (match lineDef l with
            | none => m
            | some kv => insertKV m kv.1 kv.2) = m by rw [hl]]
        exact ih m (fun x hx => hml x (List.mem_cons_of_mem _ hx))
    exact gen _ [] hall

/-- Witness for C10 at concrete skipped lines and content. -/
theorem C10_parse_skips_witness :
    lineDef ("# comment".toList) = none ∧
    lineDef ("export PATH=/usr/bin".toList) = none ∧
    parseAliases ("# a\n\nexport B=1\nalias broken".toList) = [] := by
  refine ⟨?_, ?_, ?_⟩
  · exact C10_parse_skips.1 _ (Or.inr (Or.inl (by decide)))
  · exact C10_parse_skips.1 _ (Or.inr (Or.inr (Or.inl (by decide))))
  · exact C10_parse_skips.2 _ (by decide)

/-! ### Last-write-wins and key uniqueness (claim C9) -/

theorem parseAliases_eq_filterMap (content : Str) :
    parseAliases content =
      ((content.splitOn '\n').filterMap lineDef).foldl (fun m p => insertKV m p.1 p.2) [] := by
  have gen : ∀ (lines : List Str) (m : AliasMap),
      lines.foldl
        (fun m line =>
          match lineDef line with
          | none => m
          | some kv => insertKV m kv.1 kv.2) m
        = (lines.filterMap lineDef).foldl (fun m p => insertKV m p.1 p.2) m := by
    intro lines
    induction lines with
    | nil => intro m; rfl
    | cons l rest ih =>
      intro m
      rw [List.foldl_cons]
      cases hl : lineDef l with
      | none =>
        rw [List.filterMap_cons_none hl]
        exact ih m
      | some kv =>
        rw [List.filterMap_cons_some hl, List.foldl_cons]
        exact ih _
  exact gen _ []

theorem lookupKV_foldl_insert_pairs (ps : List (Str × Str)) (m : AliasMap) (key : Str) :
    lookupKV (ps.foldl (fun m p => insertKV m p.1 p.2) m) key =
      match ps.reverse.find? (fun p => decide (p.1 = key)) with
      | some p => some p.2
      | none => lookupKV m key := by
  induction ps generalizing m with
  | nil => rfl
  | cons p rest ih =>
    rw [List.foldl_cons, ih, List.reverse_cons, List.find?_append]
    cases hf : rest.reverse.find? (fun q => decide (q.1 = key)) with
    | some q => simp [hf]
    | none =>
      by_cases hp : p.1 = key
      · simp [hf, List.find?, hp, lookupKV_insertKV]
      · have hp2 : ¬ key = p.1 := fun h => hp h.symm
        simp [hf, List.find?, hp, hp2, lookupKV_insertKV]

theorem nodup_keysOf_foldl_insert (ps : List (Str × Str)) (m : AliasMap)
    (h : (keysOf m).Nodup) :
    (keysOf (ps.foldl (fun m p => insertKV m p.1 p.2) m)).Nodup := by
  induction ps generalizing m with
  | nil => exact h
  | cons p rest ih =>
    rw [List.foldl_cons]
    exact ih _ (nodup_keysOf_insertKV _ _ _ h)

/-- C9: when several qualifying lines define the same alias name, the
parsed mapping binds that name to the value of the last such line (finding
the first match when scanning the qualifying definitions from the bottom),
and the parsed mapping never contains two entries with the same name. -/
theorem C9_last_write_wins :
    (∀ (content : Str) (key : Str),
        lookupKV (parseAliases content) key =
          Option.map Prod.snd
            (((content.splitOn '\n').filterMap lineDef).reverse.find?
              (fun p => decide (p.1 = key)))) ∧
    (∀ content : Str, (keysOf (parseAliases content)).Nodup) := by
  constructor
  · intro content key
    rw [parseAliases_eq_filterMap, lookupKV_foldl_insert_pairs]
    cases hf : ((content.splitOn '\n').filterMap lineDef).reverse.find?
        (fun p => decide (p.1 = key)) with
    | some q => simp
    | none => simp [lookupKV]
  · intro content
    rw [parseAliases_eq_filterMap]
    exact nodup_keysOf_foldl_insert _ _ (by simp [keysOf])

/-! ### Dry-run add performs no writes (claim C7) -/

/-- C7: with the dry-run flag active, the `add` action changes neither the
alias file nor the metadata file — its only effect is the human-readable
preview of exactly the content a non-dry-run `add` would have written. -/
theorem C7_dry_run_add :
    ∀ (st : ZamState) (name command : Str) (tags : List Str) (now : Str),
      addOp true st name command tags now =
        (st, [FsEffect.previewAliasFile (writeAliasesContent (insertKV st.aliases name command))]) ∧
      (∀ c, FsEffect.writeAliasFile c ∉ (addOp true st name command tags now).2) ∧
      (∀ mm, FsEffect.writeMetaFile mm ∉ (addOp true st name command tags now).2) ∧
      FsEffect.writeAliasFile (writeAliasesContent (insertKV st.aliases name command)) ∈
        (addOp false st name command tags now).2 := by
  intro st name command tags now
  refine ⟨rfl, ?_, ?_, ?_⟩
  · intro c h
    simp [addOp, writeAliasesEffects] at h
  · intro mm h
    simp [addOp, writeAliasesEffects] at h
  · simp [addOp, writeAliasesEffects]

/-! ### Rename semantics (claim C2) -/

/-- C2 counterexample: the alias `a` is present (it is a key of the alias
mapping) and `b` is absent, yet `rename a b` reports not-found and moves
nothing, because the code tests JS truthiness of the stored command and the
command here is the empty string. -/
theorem C2_counterexample :
    lookupKV (ZamState.mk [("a".toList, [])] []).aliases "a".toList = some [] ∧
    lookupKV (ZamState.mk [("a".toList, [])] []).aliases "b".toList = none ∧
    renameOp (ZamState.mk [("a".toList, [])] []) "a".toList "b".toList =
      (ZamState.mk [("a".toList, [])] [], OpOutcome.notFound) := by
  decide

/-- C2 (amended): `rename old new` reports not-found and changes nothing
when `old` is absent *or stored with an empty command* (JS truthiness);
it reports a conflict and changes nothing when — `old` being truthy —
`new` is present with a non-empty command; otherwise it moves the command
value from `old` to `new`, removes `old`, leaves every other alias
unchanged, and moves the metadata record (when one exists) from `old` to
`new`, leaving other records unchanged. -/
theorem C2_rename_spec (st : ZamState) (oldName newName : Str) :
    (truthyStr (lookupKV st.aliases oldName) = false →
      renameOp st oldName newName = (st, OpOutcome.notFound)) ∧
    (truthyStr (lookupKV st.aliases oldName) = true →
     truthyStr (lookupKV st.aliases newName) = true →
      renameOp st oldName newName = (st, OpOutcome.conflict)) ∧
    (truthyStr (lookupKV st.aliases oldName) = true →
     truthyStr (lookupKV st.aliases newName) = false →
      (renameOp st oldName newName).2 = OpOutcome.ok ∧
      lookupKV (renameOp st oldName newName).1.aliases newName = lookupKV st.aliases oldName ∧
      lookupKV (renameOp st oldName newName).1.aliases oldName = none ∧
      (∀ k, k ≠ oldName → k ≠ newName →
        lookupKV (renameOp st oldName newName).1.aliases k = lookupKV st.aliases k) ∧
      (∀ r, lookupKV st.metadata oldName = some r →
        lookupKV (renameOp st oldName newName).1.metadata newName = some r ∧
        lookupKV (renameOp st oldName newName).1.metadata oldName = none ∧
        (∀ k, k ≠ oldName → k ≠ newName →
          lookupKV (renameOp st oldName newName).1.metadata k = lookupKV st.metadata k)) ∧
      (lookupKV st.metadata oldName = none →
        (renameOp st oldName newName).1.metadata = st.metadata)) := by
  refine ⟨?_, ?_, ?_⟩
  · intro h
    simp [renameOp, h]
  · intro h1 h2
    simp [renameOp, h1, h2]
  · intro h1 h2
    have hne : oldName ≠ newName := by
      intro he
      rw [he] at h1
      exact absurd (h1.symm.trans h2) (by decide)
  
    have hmain : renameOp st oldName newName =
        ({ aliases := deleteKV
             (insertKV st.aliases newName ((lookupKV st.aliases oldName).getD [])) oldName,
           metadata :=
             match lookupKV st.metadata oldName with
             | some r => deleteKV (insertKV st.metadata newName r) oldName
             | none => st.metadata },
         OpOutcome.ok) := by
      simp [renameOp, h1, h2]
    rw [hmain]
    refine ⟨rfl, ?_, ?_, ?_, ?_, ?_⟩
    · rw [lookupKV_deleteKV, if_neg (Ne.symm hne), lookupKV_insertKV, if_pos rfl]
      cases how : lookupKV st.aliases oldName with
      | none => rw [how] at h1; exact absurd h1 (by decide)
      | some w => rfl
    · rw [lookupKV_deleteKV, if_pos rfl]
    · intro k hk1 hk2
      rw [lookupKV_deleteKV, if_neg hk1, lookupKV_insertKV, if_neg hk2]
    · intro r hr
      simp only [hr]
      refine ⟨?_, ?_, ?_⟩
      · rw [lookupKV_deleteKV, if_neg (Ne.symm hne), lookupKV_insertKV, if_pos rfl]
      · rw [lookupKV_deleteKV, if_pos rfl]
      · intro k hk1 hk2
        rw [lookupKV_deleteKV, if_neg hk1, lookupKV_insertKV, if_neg hk2]
    · intro hr
      simp only [hr]

/-- Witness for C2 on a concrete successful rename. -/
theorem C2_rename_spec_witness :
    (renameOp (ZamState.mk [("a".toList, "x".toList)] [("a".toList, { created := some "T".toList })])
        "a".toList "b".toList).2 = OpOutcome.ok ∧
    lookupKV (renameOp (ZamState.mk [("a".toList, "x".toList)] [("a".toList, { created := some "T".toList })])
        "a".toList "b".toList).1.aliases "b".toList =
      lookupKV (ZamState.mk [("a".toList, "x".toList)] [("a".toList, { created := some "T".toList })]).aliases
        "a".toList := by
  have h := (C2_rename_spec
    (ZamState.mk [("a".toList, "x".toList)] [("a".toList, { created := some "T".toList })])
    "a".toList "b".toList).2.2 (by decide) (by decide)
  exact ⟨h.1, h.2.1⟩

/-! ### Remove semantics (claim C6) -/

/-- C6 counterexample: the alias `a` is present in the mapping (with the
empty command) but `remove a` reports not-found and deletes nothing,
because the code tests JS truthiness of the stored command. -/
theorem C6_counterexample :
    lookupKV (ZamState.mk [("a".toList, [])] []).aliases "a".toList = some [] ∧
    removeOp (ZamState.mk [("a".toList, [])] []) "a".toList =
      (ZamState.mk [("a".toList, [])] [], OpOutcome.notFound) := by
  decide

/-- C6 (amended): `remove name` reports not-found and changes nothing when
`name` is absent *or stored with an empty command* (JS truthiness);
otherwise it deletes the alias, leaves every other alias unchanged, and
deletes the metadata record for `name`, leaving other records unchanged —
and it preserves the invariant that no metadata record exists for a name
absent from the alias mapping. -/
theorem C6_remove_spec (st : ZamState) (name : Str) :
    (truthyStr (lookupKV st.aliases name) = false →
      removeOp st name = (st, OpOutcome.notFound)) ∧
    (truthyStr (lookupKV st.aliases name) = true →
      (removeOp st name).2 = OpOutcome.ok ∧
      lookupKV (removeOp st name).1.aliases name = none ∧
      (∀ k, k ≠ name → lookupKV (removeOp st name).1.aliases k = lookupKV st.aliases k) ∧
      lookupKV (removeOp st name).1.metadata name = none ∧
      (∀ k, k ≠ name → lookupKV (removeOp st name).1.metadata k = lookupKV st.metadata k)) ∧
    ((∀ k, (lookupKV st.metadata k).isSome = true → (lookupKV st.aliases k).isSome = true) →
      ∀ k, (lookupKV (removeOp st name).1.metadata k).isSome = true →
        (lookupKV (removeOp st name).1.aliases k).isSome = true) := by
  refine ⟨?_, ?_, ?_⟩
  · intro h
    simp [removeOp, h]
  · intro h
    have hmain : removeOp st name =
        ({ aliases := deleteKV st.aliases name, metadata := deleteKV st.metadata name },
         OpOutcome.ok) := by
      simp [removeOp, h]
    rw [hmain]
    refine ⟨rfl, ?_, ?_, ?_, ?_⟩
    · rw [lookupKV_deleteKV, if_pos rfl]
    · intro k hk
      rw [lookupKV_deleteKV, if_neg hk]
    · rw [lookupKV_deleteKV, if_pos rfl]
    · intro k hk
      rw [lookupKV_deleteKV, if_neg hk]
  · intro hinv k hk
    by_cases ht : truthyStr (lookupKV st.aliases name) = true
    · have hmain : removeOp st name =
          ({ aliases := deleteKV st.aliases name, metadata := deleteKV st.metadata name },
           OpOutcome.ok) := by
        simp [removeOp, ht]
      rw [hmain] at hk ⊢
      by_cases hkn : k = name
      · rw [hkn, lookupKV_deleteKV, if_pos rfl] at hk
        exact absurd hk (by decide)
      · rw [lookupKV_deleteKV, if_neg hkn] at hk
        rw [lookupKV_deleteKV, if_neg hkn]
        exact hinv k hk
    · have h0 : truthyStr (lookupKV st.aliases name) = false := by
        cases hb : truthyStr (lookupKV st.aliases name)
        · rfl
        · exact absurd hb ht
      have hmain : removeOp st name = (st, OpOutcome.notFound) := by
        simp [removeOp, h0]
      rw [hmain] at hk ⊢
      exact hinv k hk

/-- Witness for C6 on a concrete successful removal. -/
theorem C6_remove_spec_witness :
    (removeOp (ZamState.mk [("a".toList, "x".toList)] [("a".toList, { created := some "T".toList })])
        "a".toList).2 = OpOutcome.ok ∧
    lookupKV (removeOp (ZamState.mk [("a".toList, "x".toList)] [("a".toList, { created := some "T".toList })])
        "a".toList).1.metadata "a".toList = none := by
  have h := (C6_remove_spec
    (ZamState.mk [("a".toList, "x".toList)] [("a".toList, { created := some "T".toList })])
    "a".toList).2.1 (by decide)
  exact ⟨h.1, h.2.2.2.1⟩

/-! ### Tag mutation and the `created` timestamp (claims C3 and C8) -/

theorem tagOp_mutate (st : ZamState) (name : Str) (mode : TagMode)
    (h : truthyStr (lookupKV st.aliases name) = true) (hm : mode ≠ TagMode.showTags) :
    tagOp st name mode =
      ({ st with metadata :=
          (if newTagsFor (getAliasTags (lookupKV st.metadata name)) mode = [] then
            insertKV st.metadata name
              { ((lookupKV st.metadata name).getD {}) with tags := none, tag := none }
          else
            insertKV st.metadata name
              { ((lookupKV st.metadata name).getD {}) with
                  tags := some (newTagsFor (getAliasTags (lookupKV st.metadata name)) mode),
                  tag := none }) },
        OpOutcome.ok) := by
  cases mode with
  | showTags => exact absurd rfl hm
  | clear => simp [tagOp, h]
  | set ts => simp [tagOp, h]
  | add ts => simp [tagOp, h]
  | remove ts => simp [tagOp, h]

theorem mem_foldl_addTags (ts : List Str) (acc : List Str) (x : Str) (hx : x ∈ acc) :
    x ∈ ts.foldl
      (fun acc t =>
        if acc.any (fun u => decide (lowerStr u = lowerStr t)) then acc else acc ++ [t])
      acc := by
  induction ts generalizing acc with
  | nil => exact hx
  | cons t' rest ih =>
    rw [List.foldl_cons]
    apply ih
    by_cases hc : acc.any (fun u => decide (lowerStr u = lowerStr t')) = true
    · rw [if_pos hc]
      exact hx
    · rw [if_neg hc]
      exact List.mem_append_left _ hx

theorem mem_newTagsFor_add (x : Str) (cur ts : List Str) (hx : x ∈ cur) :
    x ∈ newTagsFor cur (TagMode.add ts) :=
  mem_foldl_addTags ts cur x hx

/-- C3 counterexample: the alias `a` already exists with a stored `created`
timestamp `T1`; running `add` again on `a` (non-dry-run, at time `T2`)
overwrites the stored `created` value with `T2`, because `setAliasMetadata`
spreads the new `{ created }` record over the old one with the new field
winning. -/
theorem C3_counterexample :
    lookupKV (ZamState.mk [("a".toList, "x".toList)]
        [("a".toList, { created := some "T1".toList })]).metadata "a".toList =
      some { created := some "T1".toList } ∧
    lookupKV (addOp false (ZamState.mk [("a".toList, "x".toList)]
        [("a".toList, { created := some "T1".toList })])
        "a".toList "y".toList [] "T2".toList).1.metadata "a".toList =
      some { created := some "T2".toList } := by
  decide

/-- C3 (amended): every non-dry-run `add` stores `created := now` for the
added name — so re-adding an existing alias *overwrites* its original
`created` value — while the `tag` command's mutations preserve the stored
`created` value, and a successful `rename` moves the metadata record (and
with it `created`) unchanged to the new name. -/
theorem C3_created_semantics :
    (∀ (st : ZamState) (name command : Str) (tags : List Str) (now : Str),
      ((lookupKV (addOp false st name command tags now).1.metadata name).getD {}).created =
        some now) ∧
    (∀ (st : ZamState) (name : Str) (mode : TagMode),
      truthyStr (lookupKV st.aliases name) = true →
      ((lookupKV (tagOp st name mode).1.metadata name).getD {}).created =
        ((lookupKV st.metadata name).getD {}).created) ∧
    (∀ (st : ZamState) (oldName newName : Str) (r : AliasMetadata),
      truthyStr (lookupKV st.aliases oldName) = true →
      truthyStr (lookupKV st.aliases newName) = false →
      lookupKV st.metadata oldName = some r →
      lookupKV (renameOp st oldName newName).1.metadata newName = some r) := by
  refine ⟨?_, ?_, ?_⟩
  · intro st name command tags now
    have : (addOp false st name command tags now).1.metadata =
        insertKV st.metadata name (addMetaRecord (lookupKV st.metadata name) tags now) := rfl
    rw [this, lookupKV_insertKV, if_pos rfl]
    by_cases ht : tags = []
    · simp [addMetaRecord, ht]
    · simp [addMetaRecord, ht]
  · intro st name mode h
    by_cases hm : mode = TagMode.showTags
    · rw [hm]
      have : tagOp st name TagMode.showTags = (st, OpOutcome.ok) := by
        simp [tagOp, h]
      rw [this]
    · rw [tagOp_mutate st name mode h hm]
      by_cases hz : newTagsFor (getAliasTags (lookupKV st.metadata name)) mode = []
      · rw [if_pos hz, lookupKV_insertKV, if_pos rfl]
        rfl
      · rw [if_neg hz, lookupKV_insertKV, if_pos rfl]
        rfl
  · intro st oldName newName r h1 h2 hr
    have hne : oldName ≠ newName := by
      intro he
      rw [he] at h1
      exact absurd (h1.symm.trans h2) (by decide)
    exact ((C2_rename_spec st oldName newName).2.2 h1 h2).2.2.2.2.1 r hr |>.1

/-- Witness for C3 at a concrete re-add. -/
theorem C3_created_semantics_witness :
    ((lookupKV (addOp false (ZamState.mk [("a".toList, "x".toList)]
        [("a".toList, { created := some "T1".toList })])
        "a".toList "y".toList [] "T2".toList).1.metadata "a".toList).getD {}).created =
      some "T2".toList :=
  C3_created_semantics.1 (ZamState.mk [("a".toList, "x".toList)]
    [("a".toList, { created := some "T1".toList })]) "a".toList "y".toList [] "T2".toList

/-- C8: starting from a metadata record holding only the legacy single-tag
field (`{ tag := t }` with `t` non-empty), any tag-add operation stores a
record whose `tags` list is present, whose legacy `tag` field is gone, and
whose reported tags (via `getAliasTags`) still include `t`; more generally
every non-display tag mutation whose resulting tag list is non-empty stores
the result under `tags` with the legacy `tag` field removed. -/
theorem C8_tag_migration (st : ZamState) (name : Str) (t : Str) (c : Option Str)
    (halias : truthyStr (lookupKV st.aliases name) = true)
    (hmeta : lookupKV st.metadata name = some { tags := none, created := c, tag := some t })
    (ht : t ≠ []) :
    (∀ ts : List Str,
      lookupKV (tagOp st name (TagMode.add ts)).1.metadata name =
        some { tags := some (newTagsFor [t] (TagMode.add ts)), created := c, tag := none } ∧
      t ∈ getAliasTags (lookupKV (tagOp st name (TagMode.add ts)).1.metadata name)) ∧
    (∀ mode : TagMode, mode ≠ TagMode.showTags →
      newTagsFor [t] mode ≠ [] →
      lookupKV (tagOp st name mode).1.metadata name =
        some { tags := some (newTagsFor [t] mode), created := c, tag := none }) := by
  have hcur : getAliasTags (lookupKV st.metadata name) = [t] := by
    rw [hmeta]
    simp [getAliasTags, legacyTagList, ht]
  have hgen : ∀ mode : TagMode, mode ≠ TagMode.showTags →
      newTagsFor [t] mode ≠ [] →
      lookupKV (tagOp st name mode).1.metadata name =
        some { tags := some (newTagsFor [t] mode), created := c, tag := none } := by
    intro mode hm hne
    rw [tagOp_mutate st name mode halias hm]
    show lookupKV (if newTagsFor (getAliasTags (lookupKV st.metadata name)) mode = [] then _ else _) name = _
    rw [hcur, if_neg hne, lookupKV_insertKV, if_pos rfl, hmeta]
    rfl
  refine ⟨?_, hgen⟩
  intro ts
  have htmem : t ∈ newTagsFor [t] (TagMode.add ts) :=
    mem_newTagsFor_add t [t] ts (List.mem_cons_self t [])
  have hne : newTagsFor [t] (TagMode.add ts) ≠ [] := List.ne_nil_of_mem htmem
  have hres := hgen (TagMode.add ts) (by intro hh; cases hh) hne
  refine ⟨hres, ?_⟩
  rw [hres]
  simp [getAliasTags, hne]
  exact htmem

/-- Witness for C8 at a concrete legacy record and tag-add. -/
theorem C8_tag_migration_witness :
    lookupKV (tagOp (ZamState.mk [("g".toList, "git status".toList)]
        [("g".toList, { tag := some "git".toList })]) "g".toList
        (TagMode.add ["x".toList])).1.metadata "g".toList =
      some { tags := some (newTagsFor ["git".toList] (TagMode.add ["x".toList])),
             created := none, tag := none } ∧
    "git".toList ∈ getAliasTags (lookupKV (tagOp (ZamState.mk [("g".toList, "git status".toList)]
        [("g".toList, { tag := some "git".toList })]) "g".toList
        (TagMode.add ["x".toList])).1.metadata "g".toList) :=
  (C8_tag_migration (ZamState.mk [("g".toList, "git status".toList)]
    [("g".toList, { tag := some "git".toList })]) "g".toList "git".toList none
    (by decide) (by decide) (by decide)).1 ["x".toList]

/-! ### Serialization shape (claim C5) -/

theorem intercalate_single {α : Type} (sep : List α) (a : List α) :
    List.intercalate sep [a] = a := by
  simp [List.intercalate]

theorem intercalate_cons_cons {α : Type} (sep a b : List α) (l : List (List α)) :
    List.intercalate sep (a :: b :: l) = a ++ sep ++ List.intercalate sep (b :: l) := by
  simp [List.intercalate, List.intersperse_cons_cons, List.append_assoc]

theorem intercalate_concat_nil (sep : Str) (a : Str) (ls : List Str) :
    List.intercalate sep ((a :: ls) ++ [[]]) = List.intercalate sep (a :: ls) ++ sep := by
  induction ls generalizing a with
  | nil =>
    rw [show ((a :: []) ++ [([] : Str)]) = [a, []] from rfl]
    rw [intercalate_cons_cons, intercalate_single, intercalate_single]
    simp
  | cons b t ih =>
    rw [show ((a :: b :: t) ++ [([] : Str)]) = a :: ((b :: t) ++ [[]]) from rfl]
    rw [show (a :: ((b :: t) ++ [([] : Str)])) = a :: b :: (t ++ [[]]) from rfl]
    rw [intercalate_cons_cons]
    rw [show (b :: (t ++ [([] : Str)])) = (b :: t) ++ [[]] from rfl]
    rw [ih b, intercalate_cons_cons]
    simp [List.append_assoc]

theorem intercalate_cons_ne_nil (sep : Str) (b : Str) (t : List Str) (hb : b ≠ []) :
    List.intercalate sep (b :: t) ≠ [] := by
  cases t with
  | nil =>
    rw [intercalate_single]
    exact hb
  | cons c t2 =>
    rw [intercalate_cons_cons]
    intro h
    rcases List.append_eq_nil.mp (List.append_eq_nil.mp h).1 with ⟨hb2, _⟩
    exact hb hb2

theorem getLast?_intercalate_newline (ls : List Str) (a : Str) (ha : a ≠ [])
    (hls : ∀ x ∈ ls, x ≠ []) :
    (List.intercalate ['\n'] (a :: ls)).getLast? =
      ((a :: ls).getLast (List.cons_ne_nil a ls)).getLast? := by
  induction ls generalizing a with
  | nil =>
    rw [intercalate_single]
    rfl
  | cons b t ih =>
    rw [intercalate_cons_cons]
    have hb : b ≠ [] := hls b (List.mem_cons_self _ _)
    have hlastmem : (b :: t).getLast (List.cons_ne_nil b t) ∈ b :: t := List.getLast_mem _
    have hlastne : (b :: t).getLast (List.cons_ne_nil b t) ≠ [] := hls _ hlastmem
    have h1 : (List.intercalate ['\n'] (b :: t)).getLast? =
        ((b :: t).getLast (List.cons_ne_nil b t)).getLast? :=
      ih b hb (fun x hx => hls x (List.mem_cons_of_mem _ hx))
    have h2 : ((b :: t).getLast (List.cons_ne_nil b t)).getLast? =
        some (((b :: t).getLast (List.cons_ne_nil b t)).getLast hlastne) :=
      List.getLast?_eq_getLast _ hlastne
    rw [List.append_assoc, List.getLast?_append, List.getLast?_append, h1, h2]
    rw [List.getLast_cons (List.cons_ne_nil b t), h2]
    rfl

theorem getLast?_lineFor (n v : Str) : (lineFor n v).getLast? = some '\'' := by
  simp only [lineFor]
  rw [List.append_assoc, List.append_assoc, List.append_assoc]
  rw [List.getLast?_append, List.getLast?_append, List.getLast?_append,
    List.getLast?_concat]
  rfl

theorem lineFor_ne_nil (n v : Str) : lineFor n v ≠ [] := by
  simp [lineFor]

theorem mem_sortKeys (l : List Str) (x : Str) : x ∈ sortKeys l ↔ x ∈ l :=
  (List.perm_insertionSort _ l).mem_iff

theorem newline_not_mem_lineFor (n v : Str) (hn : '\n' ∉ n) (hv : '\n' ∉ v) :
    '\n' ∉ lineFor n v := by
  intro h
  simp only [lineFor, List.mem_append, List.mem_cons] at h
  rcases h with ((((h | h) | h) | h) | h)
  · exact absurd h (by decide)
  · exact hn h
  · exact absurd h (by decide)
  · exact newline_not_mem_escapeQuotes v hv h
  · exact absurd h (by decide)

theorem exists_pair_of_mem_keysOf {β : Type} (m : List (Str × β)) (k : Str)
    (h : k ∈ keysOf m) : ∃ w, (k, w) ∈ m := by
  have hs := (lookupKV_isSome_iff m k).mpr h
  cases hv : lookupKV m k with
  | none =>
    rw [hv] at hs
    simp at hs
  | some w => exact ⟨w, lookupKV_mem m k w hv⟩

theorem splitOn_writeAliasesContent (m : AliasMap)
    (h : ∀ p ∈ m, '\n' ∉ p.1 ∧ '\n' ∉ p.2) :
    (writeAliasesContent m).splitOn '\n' =
      (headerLine :: (sortKeys (keysOf m)).map (fun n => lineFor n ((lookupKV m n).getD []))) ++
        [[]] := by
  have hshape : writeAliasesContent m =
      List.intercalate ['\n']
        ((headerLine :: (sortKeys (keysOf m)).map (fun n => lineFor n ((lookupKV m n).getD []))) ++
          [[]]) := by
    rw [intercalate_concat_nil]
    rfl
  rw [hshape]
  apply List.splitOn_intercalate
  · intro l hl
    rcases List.mem_append.mp hl with hl | hl
    · rcases List.mem_cons.mp hl with hl | hl
      · rw [hl]
        decide
      · rcases List.mem_map.mp hl with ⟨n, hn, rfl⟩
        have hnk : n ∈ keysOf m := (mem_sortKeys _ _).mp hn
        rcases exists_pair_of_mem_keysOf m n hnk with ⟨w, hw⟩
        have hnn : '\n' ∉ n := (h _ hw).1
        have hlook : (lookupKV m n).isSome = true := (lookupKV_isSome_iff m n).mpr hnk
        cases hv : lookupKV m n with
        | none =>
          rw [hv] at hlook
          simp at hlook
        | some w2 =>
          have hw2 : (n, w2) ∈ m := lookupKV_mem m n w2 hv
          have hvn : '\n' ∉ w2 := (h _ hw2).2
          exact newline_not_mem_lineFor n w2 hnn hvn
    · rw [List.mem_singleton.mp hl]
      simp
  · simp

/-- C5: serialization is canonical — the emitted key sequence is sorted
ascending; the output starts with the exact header line followed by a
newline; it ends with a newline and the character before that final
newline is never itself a newline (exactly one trailing newline); for
newline-free mappings the output splits into the header line, one
`alias <name>='<escaped>'` line per alias in ascending name order, and
the empty chunk after the final newline; and two nodup mappings equal as
maps serialize to identical text regardless of entry order. -/
theorem C5_serialize_canonical :
    (∀ m : AliasMap, List.Sorted (fun a b : Str => a ≤ b) (sortKeys (keysOf m))) ∧
    (∀ m : AliasMap, (headerLine ++ ['\n']) <+: writeAliasesContent m) ∧
    (∀ m : AliasMap, (writeAliasesContent m).getLast? = some '\n' ∧
      ((writeAliasesContent m).dropLast).getLast? ≠ some '\n') ∧
    (∀ m : AliasMap, (∀ p ∈ m, '\n' ∉ p.1 ∧ '\n' ∉ p.2) →
      (writeAliasesContent m).splitOn '\n' =
        (headerLine :: (sortKeys (keysOf m)).map (fun n => lineFor n ((lookupKV m n).getD []))) ++
          [[]]) ∧
    (∀ m1 m2 : AliasMap, (keysOf m1).Nodup → (keysOf m2).Nodup →
      (∀ k, lookupKV m1 k = lookupKV m2 k) →
      writeAliasesContent m1 = writeAliasesContent m2) := by
  refine ⟨?_, ?_, ?_, splitOn_writeAliasesContent, ?_⟩
  · intro m
    exact List.sorted_insertionSort _ _
  · intro m
    show (headerLine ++ ['\n']) <+:
      List.intercalate ['\n']
        (headerLine :: (sortKeys (keysOf m)).map (fun n => lineFor n ((lookupKV m n).getD []))) ++
        ['\n']
    cases hl : (sortKeys (keysOf m)).map (fun n => lineFor n ((lookupKV m n).getD [])) with
    | nil =>
      exact ⟨[], by rw [intercalate_single]; simp⟩
    | cons b t =>
      rw [intercalate_cons_cons]
      exact ⟨List.intercalate ['\n'] (b :: t) ++ ['\n'], by simp [List.append_assoc]⟩
  · intro m
    constructor
    · exact List.getLast?_concat _
    · show ¬ (List.intercalate ['\n']
        (headerLine :: (sortKeys (keysOf m)).map (fun n => lineFor n ((lookupKV m n).getD []))) ++
        ['\n']).dropLast.getLast? = some '\n'
      rw [List.dropLast_concat]
      rw [getLast?_intercalate_newline _ _ (by decide) ?hne]
      case hne =>
        intro x hx
        rcases List.mem_map.mp hx with ⟨n, _, rfl⟩
        exact lineFor_ne_nil _ _
      cases hl : (sortKeys (keysOf m)).map (fun n => lineFor n ((lookupKV m n).getD [])) with
      | nil =>
        simp only [List.getLast_singleton]
        decide
      | cons b t =>
        rw [List.getLast_cons (List.cons_ne_nil b t)]
        have hall : ∀ x ∈ b :: t, x.getLast? = some '\'' := by
          intro x hx
          rw [← hl] at hx
          rcases List.mem_map.mp hx with ⟨n, _, heq⟩
          rw [← heq, getLast?_lineFor]
        have hmem : (b :: t).getLast (List.cons_ne_nil b t) ∈ b :: t := List.getLast_mem _
        rw [hall _ hmem]
        decide
  · intro m1 m2 h1 h2 hl
    have hperm : List.Perm (keysOf m1) (keysOf m2) := by
      refine (List.perm_ext_iff_of_nodup h1 h2).mpr ?_
      intro k
      rw [← lookupKV_isSome_iff, ← lookupKV_isSome_iff, hl k]
    have hsort : sortKeys (keysOf m1) = sortKeys (keysOf m2) := by
      haveI : IsAntisymm Str (fun a b : Str => a ≤ b) :=
        ⟨fun a b hab hba => le_antisymm hab hba⟩
      exact List.eq_of_perm_of_sorted (r := fun a b : Str => a ≤ b)
        (((List.perm_insertionSort _ _).trans hperm).trans
          (List.perm_insertionSort _ _).symm)
        (List.sorted_insertionSort _ _) (List.sorted_insertionSort _ _)
    show List.intercalate ['\n']
        (headerLine :: (sortKeys (keysOf m1)).map (fun n => lineFor n ((lookupKV m1 n).getD []))) ++
        ['\n'] =
      List.intercalate ['\n']
        (headerLine :: (sortKeys (keysOf m2)).map (fun n => lineFor n ((lookupKV m2 n).getD []))) ++
        ['\n']
    rw [hsort]
    have hmap : (sortKeys (keysOf m2)).map (fun n => lineFor n ((lookupKV m1 n).getD [])) =
        (sortKeys (keysOf m2)).map (fun n => lineFor n ((lookupKV m2 n).getD [])) := by
      apply List.map_congr_left
      intro n _
      rw [hl n]
    rw [hmap]

/-- Witness for C5's order-independence at two concretely reordered maps. -/
theorem C5_serialize_canonical_witness :
    writeAliasesContent [("b".toList, "2".toList), ("a".toList, "1".toList)] =
      writeAliasesContent [("a".toList, "1".toList), ("b".toList, "2".toList)] :=
  C5_serialize_canonical.2.2.2.2 _ _ (by decide) (by decide)
    (fun k => by
      by_cases h1 : ("b".toList : Str) = k
      · subst h1
        decide
      · by_cases h2 : ("a".toList : Str) = k
        · subst h2
          decide
        · show (if ("b".toList : Str) = k then some ("2".toList : Str)
              else if ("a".toList : Str) = k then some "1".toList else none) =
            (if ("a".toList : Str) = k then some ("1".toList : Str)
              else if ("b".toList : Str) = k then some "2".toList else none)
          rw [if_neg h1, if_neg h2, if_neg h2, if_neg h1])

/-! ### Round trip of serialize then parse (claim C1) -/

theorem jsTrim_eq_self (s : Str) (c1 c2 : Char) (h1 : s.head? = some c1)
    (h2 : s.getLast? = some c2) (w1 : isJsWhitespace c1 = false)
    (w2 : isJsWhitespace c2 = false) : jsTrim s = s := by
  unfold jsTrim
  have hd : s.dropWhile isJsWhitespace = s := by
    cases s with
    | nil => rfl
    | cons a t =>
      have ha : a = c1 := by
        simp only [List.head?_cons, Option.some.injEq] at h1
        exact h1
      rw [List.dropWhile_cons, ha, w1]
      simp
  rw [hd]
  apply List.rdropWhile_eq_self_iff.mpr
  intro hne
  have h3 := List.getLast?_eq_getLast s hne
  rw [h2] at h3
  injection h3 with h4
  rw [← h4, w2]
  simp

theorem jsSubstring_of_le (s : Str) (a b : Nat) (hab : a ≤ b) (hb : b ≤ s.length) :
    jsSubstring s a b = (s.take b).drop a := by
  simp only [jsSubstring]
  rw [show min a s.length = a by omega, show min b s.length = b by omega,
    show max a b = b by omega, show min a b = a by omega]

theorem lineFor_split (k v : Str) :
    lineFor k v =
      ("alias ".toList ++ k) ++ ('=' :: '\'' :: (escapeQuotes v ++ ['\''])) := by
  simp [lineFor, List.append_assoc]

theorem length_lineFor (k v : Str) :
    (lineFor k v).length = 6 + k.length + (3 + (escapeQuotes v).length) := by
  rw [lineFor_split]
  simp
  omega

theorem indexOf_lineFor (k v : Str) (hk1 : '=' ∉ k) :
    (lineFor k v).indexOf '=' = 6 + k.length := by
  rw [lineFor_split, List.indexOf_append_of_not_mem, List.indexOf_cons_self]
  · simp
    omega
  · intro hmem
    rcases List.mem_append.mp hmem with h | h
    · exact absurd h (by decide)
    · exact hk1 h

theorem lineDef_lineFor (k v : Str) (hk1 : '=' ∉ k) (hk2 : jsTrim k = k) :
    lineDef (lineFor k v) = some (k, v) := by
  have hhead : (lineFor k v).head? = some 'a' := rfl
  have hlast := getLast?_lineFor k v
  have hne : lineFor k v ≠ [] := lineFor_ne_nil k v
  have ht : jsTrim (lineFor k v) = lineFor k v :=
    jsTrim_eq_self _ 'a' '\'' hhead hlast (by decide) (by decide)
  have h2 : startsWithL ['#'] (lineFor k v) = false := rfl
  have h3 : startsWithL "alias ".toList (lineFor k v) = true := rfl
  have h4 : '=' ∈ lineFor k v := by
    rw [lineFor_split]
    exact List.mem_append_right _ (List.mem_cons_self _ _)
  have hidx : (lineFor k v).indexOf '=' = 6 + k.length := indexOf_lineFor k v hk1
  have hlenA : ("alias ".toList ++ k).length = 6 + k.length := by
    simp
    omega
  have hkey : jsTrim (jsSubstring (lineFor k v) 6 ((lineFor k v).indexOf '=')) = k := by
    rw [hidx, jsSubstring_of_le _ _ _ (by omega) (by rw [length_lineFor]; omega)]
    rw [lineFor_split, List.take_left' hlenA,
      List.drop_left' (show ("alias ".toList : Str).length = 6 from rfl)]
    exact hk2
  have hval : unescapeQuotes (stripQuotes (jsTrim (jsSubstring (lineFor k v)
      ((lineFor k v).indexOf '=' + 1) (lineFor k v).length))) = v := by
    rw [hidx, jsSubstring_of_le _ _ _ (by rw [length_lineFor]; omega) (le_refl _)]
    rw [List.take_length]
    have hregroup : lineFor k v =
        (("alias ".toList ++ k) ++ ['=']) ++ ('\'' :: (escapeQuotes v ++ ['\''])) := by
      rw [lineFor_split, List.append_cons]
    rw [hregroup, List.drop_left' (by simp; omega)]
    have htrim2 : jsTrim ('\'' :: (escapeQuotes v ++ ['\''])) =
        '\'' :: (escapeQuotes v ++ ['\'']) := by
      apply jsTrim_eq_self _ '\'' '\''
      · rfl
      · show (('\'' :: escapeQuotes v) ++ ['\'']).getLast? = some '\''
        exact List.getLast?_concat _
      · decide
      · decide
    rw [htrim2]
    have hcond : (('\'' :: (escapeQuotes v ++ ['\''])).head? = some '\'' ∧
        ('\'' :: (escapeQuotes v ++ ['\''])).getLast? = some '\'') ∨
        (('\'' :: (escapeQuotes v ++ ['\''])).head? = some '"' ∧
        ('\'' :: (escapeQuotes v ++ ['\''])).getLast? = some '"') := by
      left
      refine ⟨rfl, ?_⟩
      show (('\'' :: escapeQuotes v) ++ ['\'']).getLast? = some '\''
      exact List.getLast?_concat _
    have hstrip : stripQuotes ('\'' :: (escapeQuotes v ++ ['\''])) = escapeQuotes v := by
      unfold stripQuotes
      rw [if_pos hcond]
      have hlen2 : ('\'' :: (escapeQuotes v ++ ['\''])).length - 1 =
          (escapeQuotes v).length + 1 := by
        simp
      rw [jsSubstring_of_le _ _ _ (by simp) (by omega), hlen2]
      show ((('\'' :: escapeQuotes v) ++ ['\'']).take ((escapeQuotes v).length + 1)).drop 1 =
        escapeQuotes v
      rw [List.take_left' (by simp)]
      rfl
    rw [hstrip]
    exact unescapeQuotes_escapeQuotes v
  simp only [lineDef, ht]
  rw [if_neg hne]
  rw [if_neg (show ¬ (startsWithL ['#'] (lineFor k v) = true) by rw [h2]; simp)]
  rw [if_neg (show ¬ ¬ (startsWithL "alias ".toList (lineFor k v) = true) from
    not_not_intro h3)]
  rw [if_neg (show ¬ ('=' ∉ lineFor k v) from not_not_intro h4)]
  rw [hkey, hval]

theorem lookupKV_foldl_insert_fun (ks : List Str) (f : Str → Str) (m0 : AliasMap) (key : Str) :
    lookupKV (ks.foldl (fun acc n => insertKV acc n (f n)) m0) key =
      if key ∈ ks then some (f key) else lookupKV m0 key := by
  induction ks generalizing m0 with
  | nil => simp
  | cons n rest ih =>
    rw [List.foldl_cons, ih]
    by_cases hk : key ∈ rest
    · simp [hk, List.mem_cons]
    · rw [if_neg hk, lookupKV_insertKV]
      by_cases hkn : key = n
      · simp [hkn, List.mem_cons]
      · simp [hkn, hk, List.mem_cons]

/-- C1 counterexample: the mapping `{" a" ↦ "x"}` satisfies the claim's
hypotheses (the name contains no `=` and no newline, the command no
newline), yet parsing the serialized text does not restore it — the parser
trims the name, so the binding comes back under `"a"`, not `" a"`. -/
theorem C1_counterexample :
    ('=' ∉ ([' ', 'a'] : Str) ∧ '\n' ∉ ([' ', 'a'] : Str) ∧ '\n' ∉ (['x'] : Str)) ∧
    lookupKV (parseAliases (writeAliasesContent [([' ', 'a'], ['x'])])) [' ', 'a'] = none ∧
    lookupKV [(([' ', 'a'] : Str), (['x'] : Str))] [' ', 'a'] = some ['x'] := by
  decide

/-- C1 (amended): for every mapping whose names contain no `=`, no newline
and no leading or trailing whitespace (`jsTrim name = name`), and whose
commands contain no newline, parsing the serialized text yields a mapping
with exactly the same bindings: `parseAliases (writeAliases m)` and `m`
agree on every key. -/
theorem C1_roundtrip (m : AliasMap)
    (h : ∀ p ∈ m, '=' ∉ p.1 ∧ '\n' ∉ p.1 ∧ jsTrim p.1 = p.1 ∧ '\n' ∉ p.2) :
    ∀ key, lookupKV (parseAliases (writeAliasesContent m)) key = lookupKV m key := by
  intro key
  have hsplit2 := splitOn_writeAliasesContent m
    (fun p hp => ⟨(h p hp).2.1, (h p hp).2.2.2⟩)
  rw [parseAliases, hsplit2, List.foldl_append]
  rw [show ∀ acc : AliasMap, List.foldl
      (fun m line =>
        match lineDef line with
        | none => m
        | some kv => insertKV m kv.1 kv.2) acc [[]] = acc from fun acc => rfl]
  rw [List.foldl_cons]
  rw [show (match lineDef headerLine with
      | none => ([] : AliasMap)
      | some kv => insertKV [] kv.1 kv.2) = [] by rw [show lineDef headerLine = none by decide]]
  rw [List.foldl_map]
  have hext : List.foldl
      (fun (x : AliasMap) (y : Str) =>
        match lineDef (lineFor y ((lookupKV m y).getD [])) with
        | none => x
        | some kv => insertKV x kv.1 kv.2) [] (sortKeys (keysOf m)) =
      List.foldl
        (fun (acc : AliasMap) (n : Str) => insertKV acc n ((lookupKV m n).getD []))
        [] (sortKeys (keysOf m)) := by
    apply List.foldl_ext
    intro acc n hn
    have hnk : n ∈ keysOf m := (mem_sortKeys _ _).mp hn
    have hlook : (lookupKV m n).isSome = true := (lookupKV_isSome_iff m n).mpr hnk
    cases hv : lookupKV m n with
    | none =>
      rw [hv] at hlook
      simp at hlook
    | some w =>
      have hw : (n, w) ∈ m := lookupKV_mem m n w hv
      rw [lineDef_lineFor n ((some w).getD []) (h _ hw).1 (h _ hw).2.2.1]
  rw [hext, lookupKV_foldl_insert_fun]
  by_cases hkm : key ∈ sortKeys (keysOf m)
  · rw [if_pos hkm]
    have hnk : key ∈ keysOf m := (mem_sortKeys _ _).mp hkm
    have hlook : (lookupKV m key).isSome = true := (lookupKV_isSome_iff m key).mpr hnk
    cases hv : lookupKV m key with
    | none =>
      rw [hv] at hlook
      simp at hlook
    | some w => rfl
  · rw [if_neg hkm]
    have hnk : key ∉ keysOf m := fun hmem => hkm ((mem_sortKeys _ _).mpr hmem)
    rw [lookupKV_eq_none_of_not_mem m key hnk]
    rfl

/-- Witness for C1 at a concrete mapping with quotes in the command. -/
theorem C1_roundtrip_witness :
    lookupKV (parseAliases (writeAliasesContent
        [("gs".toList, "it's a 'test'".toList)])) "gs".toList =
      lookupKV [("gs".toList, "it's a 'test'".toList)] "gs".toList :=
  C1_roundtrip [("gs".toList, "it's a 'test'".toList)] (by decide) "gs".toList
